import Mathlib

/-!
Verification of the `rust-ices-triage-scan` tool (src/main.rs) against its
natural-language specification.

Rust strings are modelled as `List Char`.  Each definition below is a shallow
embedding of one function (or of the file-system / concurrency effects of one
function) of `src/main.rs`; the line numbers in the doc comments refer to that
file.
-/

namespace Triage

/-- Rust strings (`&str` / `String`) are modelled as lists of characters. -/
abbrev Str := List Char

/-- `enum CompilationResult` of main.rs (lines 98–104). -/
inductive CompilationResult
  | ICE
  | Failed
  | Compiled
  | ToolchainMissing
deriving DecidableEq, Repr

/-- `enum Error` of main.rs (lines 13–25); the payloads carried by each
variant are irrelevant to the claims, so the variants are modelled bare. -/
inductive Error
  | Io
  | PathPersist
  | Persist
  | Reqwest
  | Serde
deriving DecidableEq, Repr

/-- Rust `str::contains(pat)`: `pat` occurs as a contiguous substring of
`hay`. -/
def containsSub (hay pat : Str) : Bool := decide (pat <:+: hay)

/-- The outcome-classification logic of `run_test` (main.rs lines 143–154):
a pure function of the process exit status (`output.status.success()`) and
the captured combined output text read back from the capture file. -/
def classify (success : Bool) (buffer : Str) : CompilationResult :=
  if success then
    CompilationResult.Compiled
  else if containsSub buffer "toolchain".toList &&
          containsSub buffer "is not installed".toList then
    CompilationResult.ToolchainMissing
  else if containsSub buffer "internal compiler error".toList then
    CompilationResult.ICE
  else
    CompilationResult.Failed

/-- C2: classification is a pure total function: for every exit status and
captured text exactly one outcome kind is produced, characterised by the
precedence order success → missing-toolchain → internal-error → failed,
which is respected even when several marker substrings are present at
once. -/
theorem classify_total_precedence (success : Bool) (buffer : Str) :
    (classify success buffer = CompilationResult.Compiled ↔ success = true) ∧
    (classify success buffer = CompilationResult.ToolchainMissing ↔
      success = false ∧
      ("toolchain".toList <:+: buffer ∧ "is not installed".toList <:+: buffer)) ∧
    (classify success buffer = CompilationResult.ICE ↔
      success = false ∧
      ¬("toolchain".toList <:+: buffer ∧ "is not installed".toList <:+: buffer) ∧
      "internal compiler error".toList <:+: buffer) ∧
    (classify success buffer = CompilationResult.Failed ↔
      success = false ∧
      ¬("toolchain".toList <:+: buffer ∧ "is not installed".toList <:+: buffer) ∧
      ¬"internal compiler error".toList <:+: buffer) := by
  unfold classify containsSub
  cases success
  · simp only [Bool.and_eq_true, decide_eq_true_eq, if_true, if_false,
      Bool.false_eq_true]
    split_ifs with h₁ h₂ <;> simp_all
  · simp_all

/-- The row-changed test of `print_row` (main.rs line 170):
`!results.windows(2).all(|w| w[0] == w[1])`.  `windows(2)` over a slice is
the list of adjacent pairs, modelled as `results.zip results.tail`. -/
def changed (results : List CompilationResult) : Bool :=
  !((results.zip results.tail).all fun p => p.1 == p.2)

lemma all_zip_tail_iff_chain (rs : List CompilationResult) :
    ((rs.zip rs.tail).all fun p => p.1 == p.2) = true ↔ rs.Chain' (· = ·) := by
  induction rs with
  | nil => simp
  | cons a t ih =>
    cases t with
    | nil => simp
    | cons b u => simp_all [List.chain'_cons]

lemma chain_eq_iff_all_eq (rs : List CompilationResult) :
    rs.Chain' (· = ·) ↔ ∀ x ∈ rs, ∀ y ∈ rs, x = y := by
  induction rs with
  | nil => simp
  | cons a t ih =>
    cases t with
    | nil => simp
    | cons b u =>
      rw [List.chain'_cons]
      constructor
      · rintro ⟨rfl, hc⟩
        have h := ih.mp hc
        intro x hx y hy
        rcases List.mem_cons.mp hx with rfl | hx
        · rcases List.mem_cons.mp hy with rfl | hy
          · rfl
          · exact h x (List.mem_cons_self x u) y hy
        · rcases List.mem_cons.mp hy with rfl | hy
          · exact (h y (List.mem_cons_self y u) x hx).symm
          · exact h x hx y hy
      · intro h
        refine ⟨h a (List.mem_cons_self a _) b ?_, ih.mpr ?_⟩
        · exact List.mem_cons_of_mem a (List.mem_cons_self b u)
        · intro x hx y hy
          exact h x (List.mem_cons_of_mem a hx) y (List.mem_cons_of_mem a hy)

/-- C5: a row is flagged changed exactly when not all of its outcomes are
pairwise equal (equivalently, unchanged exactly when every adjacent pair is
equal); `[Compiled, Compiled, Compiled]` is not changed,
`[Compiled, Failed, Compiled]` is changed, and a singleton row is never
changed. -/
theorem print_row_changed_iff :
    (∀ rs : List CompilationResult,
      (changed rs = true ↔ ¬∀ x ∈ rs, ∀ y ∈ rs, x = y) ∧
      (changed rs = false ↔ rs.Chain' (· = ·))) ∧
    changed [CompilationResult.Compiled, CompilationResult.Compiled,
      CompilationResult.Compiled] = false ∧
    changed [CompilationResult.Compiled, CompilationResult.Failed,
      CompilationResult.Compiled] = true ∧
    (∀ x : CompilationResult, changed [x] = false) := by
  refine ⟨fun rs => ⟨?_, ?_⟩, by decide, by decide, fun x => by simp [changed]⟩
  · rw [← (all_zip_tail_iff_chain rs).trans (chain_eq_iff_all_eq rs)]
    simp [changed]
  · rw [← all_zip_tail_iff_chain rs]
    simp [changed]

/-- The `TOOLCHAINS` lazy static (main.rs lines 159–164):
`std::env::args().skip(1).map(|name| format!("nightly-{}", name))`.  The
full argv (program name first) is passed explicitly. -/
def TOOLCHAINS (argv : List Str) : List Str :=
  (argv.drop 1).map (fun name => "nightly-".toList ++ name)

/-- C8: the run's toolchain list is the positional arguments (argv minus the
program name) in order, each expanded by prefixing the fixed channel tag
`nightly-`. -/
theorem toolchains_from_args (prog : Str) (args : List Str) :
    TOOLCHAINS (prog :: args) =
      args.map (fun name => "nightly-".toList ++ name) ∧
    (TOOLCHAINS (prog :: args)).length = args.length ∧
    ∀ i : Nat, (TOOLCHAINS (prog :: args))[i]? =
      args[i]?.map (fun name => "nightly-".toList ++ name) := by
  refine ⟨rfl, ?_, fun i => ?_⟩ <;> simp [TOOLCHAINS, List.getElem?_map]

/-- `results.sort_by_key(|el| el.0)` (main.rs line 231): sort the collected
`(index, task result)` pairs by their originating input index. -/
def sortByIndex {α : Type} (l : List (Nat × α)) : List (Nat × α) :=
  l.insertionSort (fun a b => a.1 ≤ b.1)

instance {α : Type} : IsTotal (Nat × α) (fun a b => a.1 ≤ b.1) :=
  ⟨fun a b => Nat.le_total a.1 b.1⟩

instance {α : Type} : IsTrans (Nat × α) (fun a b => a.1 ≤ b.1) :=
  ⟨fun _ _ _ h₁ h₂ => Nat.le_trans h₁ h₂⟩

instance {α : Type} : IsAntisymm (Nat × α) (fun a b => a.1 < b.1) :=
  ⟨fun _ _ h₁ h₂ => absurd h₂ (Nat.lt_asymm h₁)⟩

lemma fst_le_of_mem_enumFrom {α : Type} {p : Nat × α} :
    ∀ {l : List α} {n : Nat}, p ∈ l.enumFrom n → n ≤ p.1 := by
  intro l
  induction l with
  | nil => intro n h; simp [List.enumFrom] at h
  | cons a t ih =>
    intro n h
    rcases List.mem_cons.mp h with rfl | h
    · exact Nat.le_refl n
    · exact Nat.le_of_succ_le (ih h)

lemma enumFrom_sorted_lt {α : Type} (l : List α) :
    ∀ n, List.Sorted (fun a b : Nat × α => a.1 < b.1) (l.enumFrom n) := by
  induction l with
  | nil => intro n; simp [List.enumFrom]
  | cons a t ih =>
    intro n
    rw [List.enumFrom, List.sorted_cons]
    exact ⟨fun b hb => Nat.lt_of_succ_le (fst_le_of_mem_enumFrom hb), ih (n + 1)⟩

/-- Any permutation of the index-tagged list, sorted by index, is the
index-tagged list in input order: the append-then-sort fan-in pattern of
`main` restores input order whatever the completion order was. -/
lemma sortByIndex_of_perm_enum {α : Type} (values : List α)
    (completed : List (Nat × α)) (h : completed.Perm values.enum) :
    sortByIndex completed = values.enum := by
  have hperm : (sortByIndex completed).Perm values.enum :=
    (List.perm_insertionSort _ _).trans h
  have hsorted : List.Sorted (fun a b : Nat × α => a.1 ≤ b.1)
      (sortByIndex completed) := List.sorted_insertionSort _ _
  have hnodup : List.Pairwise (fun a b : Nat × α => a.1 ≠ b.1)
      (sortByIndex completed) := by
    have henum : (values.enum.map Prod.fst).Nodup := by
      rw [List.enum_map_fst]; exact List.nodup_range _
    have := ((hperm.map Prod.fst).nodup_iff).mpr henum
    exact List.pairwise_map.mp this
  have hstrict : List.Sorted (fun a b : Nat × α => a.1 < b.1)
      (sortByIndex completed) :=
    (hsorted.and hnodup).imp (fun h => Nat.lt_of_le_of_ne h.1 h.2)
  exact List.eq_of_perm_of_sorted hperm hstrict (enumFrom_sorted_lt values 0)

/-- C1: for every list of per-toolchain outcomes and every completion order
of the concurrent tasks (any permutation of the index-tagged results), the
sorted collection is exactly the outcomes in input order: one outcome per
toolchain, same order as the input toolchain list. -/
theorem run_returns_outcomes_in_input_order
    (outcomes : List CompilationResult)
    (completed : List (Nat × CompilationResult))
    (hperm : completed.Perm outcomes.enum) :
    sortByIndex completed = outcomes.enum ∧
    (sortByIndex completed).map Prod.snd = outcomes ∧
    (sortByIndex completed).length = outcomes.length := by
  have h := sortByIndex_of_perm_enum outcomes completed hperm
  rw [h]
  exact ⟨rfl, List.enum_map_snd outcomes, List.enum_length⟩

/-- Witness for C1 at a concrete completion order that reverses the input
order. -/
theorem run_returns_outcomes_in_input_order_witness :
    ([((1 : Nat), CompilationResult.Failed),
        (0, CompilationResult.Compiled)]).Perm
      ([CompilationResult.Compiled, CompilationResult.Failed].enum) ∧
    sortByIndex [((1 : Nat), CompilationResult.Failed),
        (0, CompilationResult.Compiled)] =
      [CompilationResult.Compiled, CompilationResult.Failed].enum :=
  ⟨by decide,
    (run_returns_outcomes_in_input_order
      [CompilationResult.Compiled, CompilationResult.Failed]
      [(1, CompilationResult.Failed), (0, CompilationResult.Compiled)]
      (by decide)).1⟩

/-- The final step of the per-issue collection in `main` (line 232):
`results.into_iter().map(|el| el.1.unwrap()).collect()`.  Iteration stops at
the first `Err`, where `unwrap` panics; a panic is modelled as `none`. -/
def unwrapResults : List (Except Error CompilationResult) →
    Option (List CompilationResult)
  | [] => some []
  | Except.ok v :: rest => (unwrapResults rest).map (v :: ·)
  | Except.error _ :: _ => none

instance {ε α : Type} [DecidableEq ε] [DecidableEq α] :
    DecidableEq (Except ε α) := fun a b =>
  match a, b with
  | Except.ok x, Except.ok y => decidable_of_iff (x = y) (by simp)
  | Except.error x, Except.error y => decidable_of_iff (x = y) (by simp)
  | Except.ok _, Except.error _ => isFalse (by simp)
  | Except.error _, Except.ok _ => isFalse (by simp)

lemma unwrapResults_eq_none_of_error :
    ∀ (rs : List (Except Error CompilationResult)) (i : Nat) (e : Error),
      rs[i]? = some (Except.error e) → unwrapResults rs = none := by
  intro rs
  induction rs with
  | nil => intro i e h; simp at h
  | cons a t ih =>
    intro i e h
    cases i with
    | zero =>
      simp at h
      rw [h]
      rfl
    | succ j =>
      cases a with
      | error e' => rfl
      | ok v =>
        simp only [List.getElem?_cons_succ] at h
        simp [unwrapResults, ih j e h]

lemma unwrapResults_map_ok (outcomes : List CompilationResult) :
    unwrapResults (outcomes.map Except.ok) = some outcomes := by
  induction outcomes with
  | nil => rfl
  | cons v t ih => simp [unwrapResults, ih]

/-- C4: the fan-in collects one `(index, Result)` entry per input position
whatever the completion order — an error at one position does not remove
sibling entries — and the subsequent top-level `unwrap` turns any single
error into a whole-process panic (`none`) instead of a distinct outcome
kind, while an all-ok collection yields the outcomes. -/
theorem per_toolchain_error_panics_at_top_level
    (results : List (Except Error CompilationResult))
    (completed : List (Nat × Except Error CompilationResult))
    (hperm : completed.Perm results.enum) :
    sortByIndex completed = results.enum ∧
    (sortByIndex completed).length = results.length ∧
    (∀ (i : Nat) (e : Error), results[i]? = some (Except.error e) →
      unwrapResults ((sortByIndex completed).map Prod.snd) = none) ∧
    (∀ outcomes : List CompilationResult, results = outcomes.map Except.ok →
      unwrapResults ((sortByIndex completed).map Prod.snd) = some outcomes) := by
  have h := sortByIndex_of_perm_enum results completed hperm
  rw [h, List.enum_map_snd results]
  exact ⟨rfl, List.enum_length,
    fun i e he => unwrapResults_eq_none_of_error results i e he,
    fun outcomes ho => ho ▸ unwrapResults_map_ok outcomes⟩

/-- Witness for C4: with an `Err` collected for position 1 (completing
before position 0's `Ok`), the sorted collection still has both positions
and the top-level unwrap panics. -/
theorem per_toolchain_error_panics_at_top_level_witness :
    ([((1 : Nat), (Except.error Error.Io : Except Error CompilationResult)),
        (0, Except.ok CompilationResult.Compiled)]).Perm
      ([Except.ok CompilationResult.Compiled,
        Except.error Error.Io].enum) ∧
    unwrapResults
      ((sortByIndex [((1 : Nat),
          (Except.error Error.Io : Except Error CompilationResult)),
          (0, Except.ok CompilationResult.Compiled)]).map Prod.snd) = none :=
  ⟨by decide,
    (per_toolchain_error_panics_at_top_level
      [Except.ok CompilationResult.Compiled, Except.error Error.Io]
      [(1, Except.error Error.Io), (0, Except.ok CompilationResult.Compiled)]
      (by decide)).2.2.1 1 Error.Io (by decide)⟩

/-- The backtick character (code 96), written via `Char.ofNat`. -/
def tick : Char := Char.ofNat 96

/-- Rust `str::trim`: strip leading and trailing whitespace. -/
def trim (s : Str) : Str :=
  ((s.dropWhile Char.isWhitespace).reverse.dropWhile Char.isWhitespace).reverse

/-- `struct Issue` of main.rs (lines 30–34). -/
structure Issue where
  body : Str
  html_url : Str
deriving DecidableEq, Repr

/-- One attempted match of `CODEBLOCK_REGEXP` (main.rs lines 36–39),
`r"```rust(?P<snippet>[^`]+)```"`, anchored at the start of `l`: the literal
tag, then a maximal nonempty run of non-backtick characters, then the
closing fence.  Returns the captured `snippet` group and the text after the
whole match. -/
def matchAt (l : Str) : Option (Str × Str) :=
  if "```rust".toList.isPrefixOf l then
    let after := l.drop 7
    let snip := after.takeWhile (fun c => c != tick)
    let rest := after.dropWhile (fun c => c != tick)
    if snip ≠ [] ∧ "```".toList.isPrefixOf rest then some (snip, rest.drop 3)
    else none
  else none

/-- `CODEBLOCK_REGEXP.captures_iter(body).map(|c| c["snippet"].trim())`
(main.rs lines 41–45): non-overlapping matches found left to right,
resuming after each match, each capture trimmed.  `fuel` bounds the number
of scanning steps; every step strictly shortens the text, so
`fuel = length` is always enough. -/
def scanMcves : Nat → Str → List Str
  | 0, _ => []
  | fuel + 1, l =>
    match matchAt l with
    | some (snip, rest) => trim snip :: scanMcves fuel rest
    | none =>
      match l with
      | [] => []
      | _ :: t => scanMcves fuel t

/-- `get_mcves` (main.rs lines 41–45), as the full list of matches. -/
def get_mcves (body : Str) : List Str := scanMcves body.length body

/-- The per-issue dispatch of `main` (lines 217–241): issues whose body has
a first MCVE are tested (paired with it); the rest are collected into
`issues_without_mcve` in order, to be listed at the end. -/
def splitIssues : List Issue → List (Issue × Str) × List Issue
  | [] => ([], [])
  | i :: rest =>
    let p := splitIssues rest
    match (get_mcves i.body).head? with
    | some m => ((i, m) :: p.1, p.2)
    | none => (p.1, i :: p.2)

lemma takeWhile_append_all {p : Char → Bool} :
    ∀ {s y : Str}, (∀ c ∈ s, p c = true) →
      (s ++ y).takeWhile p = s ++ y.takeWhile p := by
  intro s
  induction s with
  | nil => intro y _; rfl
  | cons a t ih =>
    intro y h
    have ha : p a = true := h a (List.mem_cons_self a t)
    simp only [List.cons_append, List.takeWhile_cons, ha, if_true]
    rw [ih (fun c hc => h c (List.mem_cons_of_mem a hc))]

lemma dropWhile_append_all {p : Char → Bool} :
    ∀ {s y : Str}, (∀ c ∈ s, p c = true) →
      (s ++ y).dropWhile p = y.dropWhile p := by
  intro s
  induction s with
  | nil => intro y _; rfl
  | cons a t ih =>
    intro y h
    have ha : p a = true := h a (List.mem_cons_self a t)
    simp only [List.cons_append, List.dropWhile_cons, ha, if_true]
    exact ih (fun c hc => h c (List.mem_cons_of_mem a hc))

lemma fence_eq : "```".toList = [tick, tick, tick] := by decide

lemma tag_eq : "```rust".toList = tick :: tick :: tick :: "rust".toList := by
  decide

/-- A well-formed block anchored at the front matches, capturing exactly its
content and resuming after the closing fence. -/
lemma matchAt_decomp (s rest : Str) (hne : s ≠ [])
    (hs : ∀ c ∈ s, c ≠ tick) :
    matchAt ("```rust".toList ++ (s ++ ("```".toList ++ rest))) =
      some (s, rest) := by
  have hall : ∀ c ∈ s, (c != tick) = true := by
    intro c hc; simpa using hs c hc
  unfold matchAt
  rw [if_pos (List.isPrefixOf_iff_prefix.mpr (List.prefix_append _ _))]
  have hdrop : ("```rust".toList ++ (s ++ ("```".toList ++ rest))).drop 7 =
      s ++ ("```".toList ++ rest) := by
    have h7 : (7 : Nat) = "```rust".toList.length := by decide
    rw [h7, List.drop_left]
  dsimp only
  rw [hdrop, takeWhile_append_all hall, dropWhile_append_all hall]
  have htw : ("```".toList ++ rest).takeWhile (fun c => c != tick) = [] := by
    rw [fence_eq]
    simp [List.takeWhile_cons]
  have hdw : ("```".toList ++ rest).dropWhile (fun c => c != tick) =
      "```".toList ++ rest := by
    rw [fence_eq]
    simp [List.dropWhile_cons]
  rw [htw, hdw, List.append_nil]
  rw [if_pos ⟨hne, List.isPrefixOf_iff_prefix.mpr (List.prefix_append _ _)⟩]
  have : ("```".toList ++ rest).drop 3 = rest := by
    have : (3 : Nat) = "```".toList.length := by decide
    rw [this, List.drop_left]
  rw [this]

/-- A match attempt fails when the text does not start with a backtick. -/
lemma matchAt_cons_ne_tick {c : Char} (t : Str) (hc : c ≠ tick) :
    matchAt (c :: t) = none := by
  unfold matchAt
  rw [if_neg]
  intro h
  have := List.isPrefixOf_iff_prefix.mp h
  rw [tag_eq] at this
  rcases this with ⟨w, hw⟩
  rw [List.cons_append] at hw
  exact hc (List.head_eq_of_cons_eq hw).symm

/-- A successful match attempt consumed at least the tag, so the remaining
text is strictly shorter; its capture is nonempty and backtick-free. -/
lemma matchAt_some {l s rest : Str} (h : matchAt l = some (s, rest)) :
    rest.length < l.length ∧ s ≠ [] ∧ (∀ c ∈ s, c ≠ tick) ∧
      "```rust".toList <+: l := by
  unfold matchAt at h
  by_cases hp : "```rust".toList.isPrefixOf l
  · rw [if_pos hp] at h
    dsimp only at h
    by_cases hcond : ((l.drop 7).takeWhile (fun c => c != tick)) ≠ [] ∧
        "```".toList.isPrefixOf ((l.drop 7).dropWhile (fun c => c != tick))
    · rw [if_pos hcond] at h
      injection h with h'
      injection h' with hs hrest
      have hlen7 : 7 ≤ l.length := by
        have := (List.isPrefixOf_iff_prefix.mp hp).length_le
        simpa using this
      refine ⟨?_, ?_, ?_, List.isPrefixOf_iff_prefix.mp hp⟩
      · rw [← hrest]
        have h₁ : ((l.drop 7).dropWhile (fun c => c != tick)).length ≤
            (l.drop 7).length :=
          (List.dropWhile_sublist (fun c => c != tick)).length_le
        have h₂ : (l.drop 7).length = l.length - 7 := List.length_drop 7 l
        have h₃ : (((l.drop 7).dropWhile (fun c => c != tick)).drop 3).length ≤
            ((l.drop 7).dropWhile (fun c => c != tick)).length :=
          (List.drop_sublist 3 _).length_le
        omega
      · rw [← hs]; exact hcond.1
      · intro c hc
        rw [← hs] at hc
        have := List.mem_takeWhile_imp hc
        simpa using this
    · rw [if_neg hcond] at h
      exact absurd h (by simp)
  · rw [if_neg hp] at h
    exact absurd h (by simp)

lemma scanMcves_head_of_block :
    ∀ (pre : Str) (fuel : Nat) (s rest : Str),
      (∀ c ∈ pre, c ≠ tick) → s ≠ [] → (∀ c ∈ s, c ≠ tick) →
      (pre ++ ("```rust".toList ++ (s ++ ("```".toList ++ rest)))).length ≤
        fuel →
      (scanMcves fuel
        (pre ++ ("```rust".toList ++ (s ++ ("```".toList ++ rest))))).head? =
        some (trim s) := by
  intro pre
  induction pre with
  | nil =>
    intro fuel s rest _ hne hs hlen
    rw [List.nil_append] at hlen ⊢
    cases fuel with
    | zero =>
      exfalso
      rw [List.length_append, tag_eq] at hlen
      simp at hlen
    | succ f =>
      simp only [scanMcves, matchAt_decomp s rest hne hs, List.head?_cons]
  | cons c pre ih =>
    intro fuel s rest hpre hne hs hlen
    cases fuel with
    | zero =>
      exfalso
      rw [List.cons_append, List.length_cons] at hlen
      omega
    | succ f =>
      rw [List.cons_append]
      simp only [scanMcves,
        matchAt_cons_ne_tick _ (hpre c (List.mem_cons_self c pre))]
      apply ih f s rest (fun x hx => hpre x (List.mem_cons_of_mem c hx)) hne hs
      rw [List.cons_append, List.length_cons] at hlen
      omega

lemma scanMcves_nil_of_no_tag :
    ∀ (fuel : Nat) (l : Str), ¬("```rust".toList <:+: l) →
      scanMcves fuel l = [] := by
  intro fuel
  induction fuel with
  | zero => intro l _; rfl
  | succ f ih =>
    intro l h
    cases hm : matchAt l with
    | some pr =>
      obtain ⟨s', r'⟩ := pr
      exact absurd (matchAt_some hm).2.2.2.isInfix h
    | none =>
      simp only [scanMcves, hm]
      cases l with
      | nil => rfl
      | cons c t =>
        exact ih t (fun ht => h (List.infix_cons ht))

lemma mem_of_mem_trim {c : Char} {s : Str} (h : c ∈ trim s) : c ∈ s := by
  unfold trim at h
  rw [List.mem_reverse] at h
  have h₁ := (List.dropWhile_sublist Char.isWhitespace).subset h
  rw [List.mem_reverse] at h₁
  exact (List.dropWhile_sublist Char.isWhitespace).subset h₁

lemma scanMcves_no_tick :
    ∀ (fuel : Nat) (l m : Str), m ∈ scanMcves fuel l → ∀ c ∈ m, c ≠ tick := by
  intro fuel
  induction fuel with
  | zero => intro l m h; simp [scanMcves] at h
  | succ f ih =>
    intro l m h c hc
    cases hm : matchAt l with
    | some pr =>
      obtain ⟨s', r'⟩ := pr
      simp only [scanMcves, hm] at h
      rcases List.mem_cons.mp h with rfl | h
      · exact (matchAt_some hm).2.2.1 c (mem_of_mem_trim hc)
      · exact ih r' m h c hc
    | none =>
      simp only [scanMcves, hm] at h
      cases l with
      | nil => simp at h
      | cons a t =>
        exact ih t m h c hc

/-- C6: the chosen reproducer is the first tagged fenced block's content,
trimmed: for every body of the form `pre ++ "```rust" ++ s ++ "```" ++ rest`
whose prefix `pre` has no backtick and whose content `s` is nonempty and
backtick-free, the first extracted MCVE is `trim s`; a two-block body
yields the first block's trimmed content; a body with no block yields none,
and such an issue is collected into `issues_without_mcve` instead of being
tested. -/
theorem first_rust_block_is_reproducer :
    (∀ (pre s rest : Str), (∀ c ∈ pre, c ≠ tick) → s ≠ [] →
      (∀ c ∈ s, c ≠ tick) →
      (get_mcves
        (pre ++ ("```rust".toList ++ (s ++ ("```".toList ++ rest))))).head? =
        some (trim s)) ∧
    get_mcves "x ```rust a1 ``` y ```rust b2 ``` z".toList =
      ["a1".toList, "b2".toList] ∧
    get_mcves "no code here".toList = [] ∧
    (∀ (iss : Issue) (rest : List Issue),
      (get_mcves iss.body).head? = none →
      (splitIssues (iss :: rest)).1 = (splitIssues rest).1 ∧
      (splitIssues (iss :: rest)).2 = iss :: (splitIssues rest).2) := by
  refine ⟨?_, by decide, by decide, ?_⟩
  · intro pre s rest hpre hne hs
    exact scanMcves_head_of_block pre _ s rest hpre hne hs (Nat.le_refl _)
  · intro iss rest h
    simp [splitIssues, h]

/-- Witness for C6 at a concrete body with text before and after the
block. -/
theorem first_rust_block_is_reproducer_witness :
    (get_mcves
      ("q ".toList ++
        ("```rust".toList ++
          (" fn f() ".toList ++ ("```".toList ++ " tail".toList))))).head? =
      some (trim " fn f() ".toList) :=
  first_rust_block_is_reproducer.1 "q ".toList " fn f() ".toList
    " tail".toList (by decide) (by decide) (by decide)

/-- C10: extraction only matches blocks opened exactly with the ```rust tag
and with backtick-free nonempty content: a body with no occurrence of the
tag yields no MCVE, every extracted MCVE is backtick-free, a rust-tagged
block whose content holds a backtick yields no MCVE, an otherwise-tagged
fence yields no MCVE, and an issue with no MCVE is listed as lacking
one. -/
theorem codeblock_regexp_exact_tag_no_backtick :
    (∀ body : Str, ¬("```rust".toList <:+: body) → get_mcves body = []) ∧
    (∀ (body m : Str), m ∈ get_mcves body → ∀ c ∈ m, c ≠ tick) ∧
    get_mcves ("```rust a ".toList ++ [tick] ++ "b".toList ++ [tick] ++
      " c ```".toList) = [] ∧
    get_mcves "```rs fn main() ```".toList = [] ∧
    (∀ (iss : Issue) (rest : List Issue), get_mcves iss.body = [] →
      (splitIssues (iss :: rest)).2 = iss :: (splitIssues rest).2) := by
  refine ⟨?_, ?_, by decide, by decide, ?_⟩
  · intro body h
    exact scanMcves_nil_of_no_tag body.length body h
  · intro body m h
    exact scanMcves_no_tick body.length body m h
  · intro iss rest h
    simp [splitIssues, h]

/-- Witness for C10: a tag-free body yields no MCVE and its issue is listed
among those lacking one. -/
theorem codeblock_regexp_exact_tag_no_backtick_witness :
    get_mcves "nothing".toList = [] ∧
    (splitIssues [⟨"nothing".toList, "u".toList⟩]).2 =
      ⟨"nothing".toList, "u".toList⟩ :: (splitIssues []).2 :=
  ⟨codeblock_regexp_exact_tag_no_backtick.1 "nothing".toList (by decide),
    codeblock_regexp_exact_tag_no_backtick.2.2.2.2
      ⟨"nothing".toList, "u".toList⟩ [] (by decide)⟩


/-- The per-entry parsing closure inside `get_next_link` (main.rs lines
56–70): split the entry on `;` and trim the parts; the first part must be
an angle-bracketed URL and the second a `rel="..."` attribute, enforced by
`unwrap()` and `assert!`, so a malformed entry panics — modelled as
`Except.error ()`.  Returns `(rel, url)` with the brackets and the
`rel="..."` wrapper stripped. -/
def parseLinkEntry (entry : Str) : Except Unit (Str × Str) :=
  match (entry.splitOn ';').map trim with
  | [] => Except.error ()
  | url0 :: rest =>
    if url0.head? = some '<' ∧ url0.getLast? = some '>' then
      match rest with
      | [] => Except.error ()
      | rel0 :: _ =>
        if "rel=\"".toList.isPrefixOf rel0 ∧ rel0.getLast? = some '"' then
          Except.ok ((rel0.drop 5).dropLast, (url0.drop 1).dropLast)
        else Except.error ()
    else Except.error ()

/-- The lazy `.map(parse).find(rel == "next")` part of `get_next_link`
(lines 53–72): entries are parsed in order only until a `rel="next"` entry
is found, so a malformed entry after it is never reached. -/
def findNext : List Str → Except Unit (Option Str)
  | [] => Except.ok none
  | e :: rest =>
    match parseLinkEntry e with
    | Except.error u => Except.error u
    | Except.ok (rel, url) =>
      if rel = "next".toList then Except.ok (some url) else findNext rest

/-- `get_next_link` (main.rs lines 48–74).  The argument is the `Link`
response header's value, if present (the `to_str().ok()` lossy step is
outside the model: the value is already a string).  An absent header yields
no next URL without panicking. -/
def get_next_link (header : Option Str) : Except Unit (Option Str) :=
  match header with
  | none => Except.ok none
  | some v => findNext ((v.splitOn ',').map trim)

/-- C9: next-link extraction is not total over header text: an entry whose
URL is not bracketed, an entry with no `;`-separated part, or a rel part
not of the form `rel="..."` each panic (`Except.error`), instead of
returning no link — while an absent header and a well-formed header are
handled. -/
theorem get_next_link_not_total :
    get_next_link (some "<https://x>".toList) = Except.error () ∧
    get_next_link (some "https://x; rel=\"next\"".toList) =
      Except.error () ∧
    get_next_link (some "<https://x>; foo=\"next\"".toList) =
      Except.error () ∧
    get_next_link none = Except.ok none ∧
    get_next_link (some "<https://x>; rel=\"next\"".toList) =
      Except.ok (some "https://x".toList) := by
  refine ⟨?_, ?_, ?_, rfl, ?_⟩ <;> decide

/-- The pagination loop of `get_issues` (main.rs lines 76–96) over an
abstract server: `server url` is the decoded issue list of that page
together with its raw `Link` header (or `none`).  The loop keeps fetching
while `next_url` is `Some`; `fuel` only bounds the number of iterations the
model may unfold (`none` = fuel ran out), the loop itself stops exactly
when `get_next_link` returns no URL.  On normal exit it yields all issues
in fetch order together with the number of fetches performed. -/
def getIssuesLoop (server : Str → List Issue × Option Str) :
    Nat → Option Str → Option (Except Unit (List Issue × Nat))
  | _, none => some (Except.ok ([], 0))
  | 0, some _ => none
  | fuel + 1, some url =>
    match get_next_link (server url).2 with
    | Except.error u => some (Except.error u)
    | Except.ok nextUrl =>
      match getIssuesLoop server fuel nextUrl with
      | none => none
      | some (Except.error e) => some (Except.error e)
      | some (Except.ok (rest, n)) =>
        some (Except.ok ((server url).1 ++ rest, n + 1))

lemma getIssuesLoop_pages
    (server : Str → List Issue × Option Str)
    (pages : List (List Issue)) (urls : List Str)
    (hlen : urls.length = pages.length)
    (hserver : ∀ (i : Nat) (hi : i < urls.length),
      (server (urls.get ⟨i, hi⟩)).1 = pages.get ⟨i, hlen ▸ hi⟩ ∧
      get_next_link (server (urls.get ⟨i, hi⟩)).2 = Except.ok urls[i + 1]?) :
    ∀ (d i fuel : Nat), i + d = pages.length → d ≤ fuel →
      getIssuesLoop server fuel urls[i]? =
        some (Except.ok ((pages.drop i).flatten, d)) := by
  intro d
  induction d with
  | zero =>
    intro i fuel hid _
    rw [List.getElem?_eq_none (by omega), List.drop_eq_nil_of_le (by omega),
      List.flatten_nil]
    cases fuel <;> rfl
  | succ d ih =>
    intro i fuel hid hfuel
    have hi : i < urls.length := by omega
    have hip : i < pages.length := by omega
    obtain ⟨h₁, h₂⟩ := hserver i hi
    rw [List.get_eq_getElem] at h₁ h₂
    rw [List.getElem?_eq_getElem hi]
    cases fuel with
    | zero => omega
    | succ f =>
      simp only [getIssuesLoop, h₂,
        ih (i + 1) f (by omega) (by omega), h₁]
      rw [← List.getElem_cons_drop pages i hip, List.flatten_cons,
        List.get_eq_getElem]

/-- C7: for a paginated source of K pages whose last page carries no next
link (and each earlier page's `Link` header resolves to the next page's
URL), the fetch loop terminates with exactly K fetches — for every fuel
bound of at least K — and yields all items across pages in page order. -/
theorem pagination_k_pages_k_fetches
    (server : Str → List Issue × Option Str)
    (pages : List (List Issue)) (urls : List Str)
    (hlen : urls.length = pages.length)
    (hserver : ∀ (i : Nat) (hi : i < urls.length),
      (server (urls.get ⟨i, hi⟩)).1 = pages.get ⟨i, hlen ▸ hi⟩ ∧
      get_next_link (server (urls.get ⟨i, hi⟩)).2 = Except.ok urls[i + 1]?) :
    ∀ fuel, pages.length ≤ fuel →
      getIssuesLoop server fuel urls[0]? =
        some (Except.ok (pages.flatten, pages.length)) := by
  intro fuel hf
  have h := getIssuesLoop_pages server pages urls hlen hserver
    pages.length 0 fuel (by omega) hf
  simpa using h

/-- Witness for C7: a concrete two-page server; page 0's header links to
page 1, page 1 has no header; two fetches, items in page order. -/
theorem pagination_k_pages_k_fetches_witness :
    getIssuesLoop
      (fun url =>
        if url = "u0".toList then
          ([⟨"b0".toList, "h0".toList⟩], some "<u1>; rel=\"next\"".toList)
        else
          ([⟨"b1".toList, "h1".toList⟩], none))
      2 (["u0".toList, "u1".toList][0]?) =
      some (Except.ok
        ([[(⟨"b0".toList, "h0".toList⟩ : Issue)],
          [⟨"b1".toList, "h1".toList⟩]].flatten, 2)) :=
  pagination_k_pages_k_fetches
    (fun url =>
      if url = "u0".toList then
        ([⟨"b0".toList, "h0".toList⟩], some "<u1>; rel=\"next\"".toList)
      else
        ([⟨"b1".toList, "h1".toList⟩], none))
    [[⟨"b0".toList, "h0".toList⟩], [⟨"b1".toList, "h1".toList⟩]]
    ["u0".toList, "u1".toList] rfl (by decide) 2 (by decide)

/-- A file-system state for the temp-file lifecycle model: the ids of
files currently existing on disk, and the next fresh id. -/
structure FS where
  files : List Nat
  next : Nat
deriving DecidableEq, Repr

/-- A temp-file handle: its on-disk id and whether dropping it deletes the
file (true for a fresh `NamedTempFile`, false once persisted). -/
structure TempFile where
  id : Nat
  deleteOnDrop : Bool
deriving DecidableEq, Repr

/-- `tempfile::NamedTempFile::new()`: creates a fresh file on disk whose
handle deletes it when dropped. -/
def namedTempFileNew (fs : FS) : TempFile × FS :=
  (⟨fs.next, true⟩, ⟨fs.files ++ [fs.next], fs.next + 1⟩)

/-- `NamedTempFile::keep()` / `TempPath::keep()`: persists the file —
clears the delete-on-drop flag, so the file survives the handle. -/
def keepFile (t : TempFile) : TempFile := { t with deleteOnDrop := false }

/-- Dropping a handle deletes the file exactly when its delete-on-drop
flag is still set. -/
def dropFile (t : TempFile) (fs : FS) : FS :=
  if t.deleteOnDrop then { fs with files := fs.files.erase t.id } else fs

/-- The exit paths of one `run_test` execution: normal return (whatever the
exit status), early `?` return from `std::fs::write` (line 122), from
`spawn` (line 139), or from `read_to_string` (line 146). -/
inductive ExitPath
  | success
  | writeFail
  | spawnFail
  | readFail
deriving DecidableEq, Repr

/-- The temp-file lifecycle of `run_test` (main.rs lines 118–157) on each
exit path.  Each of the three temp files — compiler input (line 121),
artifact target (line 124), output capture (line 126) — is passed through
`keep()` immediately after creation; when the function returns (normally or
via `?`), the handles owned so far go out of scope and are dropped. -/
def run_test_files (p : ExitPath) (fs : FS) : FS :=
  let r1 := namedTempFileNew fs
  let stdin := keepFile r1.1
  match p with
  | ExitPath.writeFail => dropFile stdin r1.2
  | _ =>
    let r2 := namedTempFileNew r1.2
    let artifact := keepFile r2.1
    let r3 := namedTempFileNew r2.2
    let capture := keepFile r3.1
    dropFile stdin (dropFile artifact (dropFile capture r3.2))

/-- Counterexample to C3: on the success exit path from an empty file
system, nothing is released — all three temporary files created by
`run_test` are still on disk when it returns, where the claim demands the
state be restored to the initial one. -/
theorem run_test_files_counterexample :
    (run_test_files ExitPath.success ⟨[], 0⟩).files = [0, 1, 2] ∧
    ¬(run_test_files ExitPath.success ⟨[], 0⟩).files = (⟨[], 0⟩ : FS).files :=
  by decide

/-- C3 amended: `run_test` persists every temporary file it creates via
`keep()`, so on every exit path the files created up to that point — all
three on a normal or post-spawn exit, the input file alone on a write
failure — remain on disk; none is released. -/
theorem run_test_files_kept (p : ExitPath) (fs : FS) :
    (run_test_files p fs).files =
      fs.files ++
        (match p with
         | ExitPath.writeFail => [fs.next]
         | _ => [fs.next, fs.next + 1, fs.next + 2]) := by
  cases p <;> simp [run_test_files, namedTempFileNew, keepFile, dropFile]

end Triage
